import Mathlib

/-!
Verification of the document-chunking pipeline of `01_Home.py` (a Streamlit
RAG application).  The Python function `get_chunks` and the API-key gating of
`main` are embedded shallowly below: pages are their extractable text,
PyPDF2's `reader.pages` deletions become explicit list operations, Python
exceptions become `Except` errors, and the third-party
`RecursiveCharacterTextSplitter.split_text` is abstracted as a function
parameter `split : String → List String` (the claims under study do not
depend on its internals, only on how its output is tagged).
-/

namespace RagChunker

/-- Boolean test that `p` is a prefix of `s` (models Python string matching
of a literal pattern at the current scan position). -/
def isPre : List Char → List Char → Bool
  | [], _ => true
  | _ :: _, [] => false
  | a :: as, b :: bs => a == b && isPre as bs

/-- Boolean substring test: models Python's `needle in hay`. -/
def containsSub (needle : List Char) : List Char → Bool
  | [] => isPre needle []
  | c :: t => isPre needle (c :: t) || containsSub needle t

/-- Result of `re.sub` with an empty pattern: a space is inserted at every
position, including both ends. -/
def spaceSep : List Char → List Char
  | [] => [' ']
  | c :: cs => ' ' :: c :: spaceSep cs

/-- Fuelled scan of `re.sub(p, ' ', s)` for a nonempty literal pattern `p`:
leftmost non-overlapping occurrences of `p` are each replaced by one space.
With `fuel = s.length` the fuel never runs out, since every step consumes at
least one character of `s`. -/
def substGo (p : List Char) : Nat → List Char → List Char
  | 0, s => s
  | fuel + 1, s =>
    if isPre p s then ' ' :: substGo p fuel (s.drop p.length)
    else
      match s with
      | [] => []
      | c :: cs => c :: substGo p fuel cs

/-- `re.sub(p, ' ', s)` on character lists, for a literal pattern `p`
(every default delimiter of `get_chunks` is free of regex metacharacters,
so `re.sub` on them is literal non-overlapping leftmost replacement). -/
def substL (p s : List Char) : List Char :=
  match p with
  | [] => spaceSep s
  | _ :: _ => substGo p s.length s

/-- `re.sub(pattern, ' ', text)` at the `String` level, literal pattern. -/
def pysub (pat s : String) : String :=
  ⟨substL pat.data s.data⟩

/-- The default `delimiters_to_remove` of `get_chunks`:
tab, newline, three spaces, two spaces, in that order. -/
def defaultDelimiters : List String :=
  ["\t", "\n", "   ", "  "]

/-- The delimiter-cleanup pass of `get_chunks` (lines 66-70): each delimiter
pattern is substituted by a single space, in configured list order, later
substitutions seeing the result of earlier ones. -/
def cleanupText (ds : List String) (s : String) : String :=
  ds.foldl (fun acc d => pysub d acc) s

/-- The delimiter-cleanup pass at the character-list level; `cleanupText`
computes this on the underlying character data. -/
def cleanupL (ds : List (List Char)) (s : List Char) : List Char :=
  ds.foldl (fun acc d => substL d acc) s

/-- Models Python's `key.startswith(pre)`. -/
def pyStartsWith (pre s : String) : Bool :=
  isPre pre.data s.data

/-- An uploaded PDF, reduced to what `get_chunks` reads from it:
the `reader.metadata` key/value pairs in iteration order, and the pages,
each identified with its extractable text (`page.extract_text()`). -/
structure PdfFile where
  metadata : List (String × String)
  pages : List String
deriving DecidableEq

/-- Python exceptions that `get_chunks` can raise: `IndexError` from
deleting or popping a page of an empty page list, `TypeError` from
`range(None)` when a trim count was left at its default `None`, and
`UnboundLocalError` from the `i += 1` statement in the no-splitter branch,
whose local `i` is never initialized. -/
inductive PyError where
  | indexError
  | typeError
  | unboundLocalError
deriving DecidableEq

/-- A LangChain `Document` as built by `get_chunks`: the chunk text and the
metadata fields `source` (resolved document title) and `page`
(`str(page_number + 1)`). -/
structure Chunk where
  page_content : String
  source : String
  page : String
deriving DecidableEq

/-- The keyword parameters of `get_chunks`.  `chunk_size`/`chunk_overlap`
are absorbed into the abstract splitter function; `front_pages_to_remove`
and `last_pages_to_remove` default to Python's `None`, modelled as
`Option Nat`. -/
structure ChunkConfig where
  use_splitter : Bool := true
  remove_leftover_delimiters : Bool := true
  remove_pages : Bool := false
  front_pages_to_remove : Option Nat := none
  last_pages_to_remove : Option Nat := none
  delimiters_to_remove : List String := defaultDelimiters
deriving DecidableEq

/-- `for _ in range(n): del reader.pages[0]` — deletes the first page `n`
times; deleting from an empty list raises `IndexError`. -/
def trimFront : Nat → List String → Except PyError (List String)
  | 0, ps => .ok ps
  | _ + 1, [] => .error .indexError
  | n + 1, _ :: ps => trimFront n ps

/-- `for _ in range(n): reader.pages.pop()` — pops the last page `n` times;
popping an empty list raises `IndexError`. -/
def trimBack : Nat → List String → Except PyError (List String)
  | 0, ps => .ok ps
  | n + 1, ps =>
    match ps with
    | [] => .error .indexError
    | _ :: _ => trimBack n ps.dropLast

/-- The page-trimming step of `get_chunks` (lines 34-40).  When
`remove_pages` is true, `range(front)` is evaluated first — a `None` count
raises `TypeError` — then the front pages are deleted, then the same for
the back pages. -/
def doTrim (removePages : Bool) (front lastN : Option Nat) (ps : List String) :
    Except PyError (List String) :=
  if removePages then
    match front with
    | none => .error .typeError
    | some f =>
      match trimFront f ps with
      | .error e => .error e
      | .ok ps1 =>
        match lastN with
        | none => .error .typeError
        | some l => trimBack l ps1
  else .ok ps

/-- `key.lower()` on the characters of a key (ASCII lowering, which is what
the metadata keys of a PDF use). -/
def pyLower (k : String) : List Char :=
  k.data.map Char.toLower

/-- `'title' in key.lower()` — case-insensitive substring test. -/
def hasTitleKey (k : String) : Bool :=
  containsSub "title".data (pyLower k)

/-- Title resolution of `get_chunks` (lines 28-32): start from the
placeholder `uploaded_file_<index+1>` and scan the metadata pairs in order,
overwriting the title with the value of every key containing "title"
case-insensitively — so the last matching pair wins. -/
def resolveTitle (fileIndex : Nat) (metadata : List (String × String)) : String :=
  metadata.foldl (fun acc kv => if hasTitleKey kv.1 then kv.2 else acc)
    ("uploaded_file_" ++ toString (fileIndex + 1))

/-- The extraction loop of `get_chunks` (lines 46-63).  With the splitter,
every page's text is split and each piece is tagged with the title and the
1-based page number.  Without the splitter, the first loop iteration
executes `i += 1` on the never-initialized local `i` and raises
`UnboundLocalError`; only a document with no remaining pages avoids the
raise (the loop body never runs) and yields an empty chunk list. -/
def extractChunks (split : String → List String) (useSplitter : Bool)
    (title : String) (pages : List String) : Except PyError (List Chunk) :=
  if useSplitter then
    .ok (pages.enum.flatMap fun ip =>
      (split ip.2).map fun t =>
        { page_content := t, source := title, page := toString (ip.1 + 1) })
  else
    match pages with
    | [] => .ok []
    | _ :: _ => .error .unboundLocalError

/-- The in-place rewrite `chunk.page_content = re.sub(delimiter, ' ',
chunk.page_content)` applied over all configured delimiters (line 70). -/
def cleanupChunk (ds : List String) (c : Chunk) : Chunk :=
  { c with page_content := cleanupText ds c.page_content }

/-- One iteration of the per-file loop of `get_chunks` (lines 25-72), for
the file at position `fileIndex`: trim pages, extract chunks, then run the
delimiter cleanup when enabled.  Any raised exception aborts the whole
call, so an `Except` error here propagates. -/
def processDoc (cfg : ChunkConfig) (split : String → List String)
    (fileIndex : Nat) (f : PdfFile) : Except PyError (List Chunk) :=
  match doTrim cfg.remove_pages cfg.front_pages_to_remove
      cfg.last_pages_to_remove f.pages with
  | .error e => .error e
  | .ok pages =>
    match extractChunks split cfg.use_splitter
        (resolveTitle fileIndex f.metadata) pages with
    | .error e => .error e
    | .ok doc =>
      .ok (if cfg.remove_leftover_delimiters then
            doc.map (cleanupChunk cfg.delimiters_to_remove)
          else doc)

/-- The accumulating per-file loop of `get_chunks`: `documents.extend(...)`
and `document_names.append(pdf_title)` become the two accumulators.  (In
the source the name is appended before trimming, but since any exception
discards both lists this is observationally the same.) -/
def get_chunksAux (cfg : ChunkConfig) (split : String → List String) :
    Nat → List PdfFile → List Chunk → List String →
    Except PyError (List Chunk × List String)
  | _, [], accC, accN => .ok (accC, accN)
  | i, f :: rest, accC, accN =>
    match processDoc cfg split i f with
    | .error e => .error e
    | .ok doc =>
      get_chunksAux cfg split (i + 1) rest (accC ++ doc)
        (accN ++ [resolveTitle i f.metadata])

/-- `get_chunks(file_input, ...)`: returns the accumulated chunks of all
files and the resolved display names, or the first raised exception. -/
def get_chunks (cfg : ChunkConfig) (split : String → List String)
    (files : List PdfFile) : Except PyError (List Chunk × List String) :=
  get_chunksAux cfg split 0 files [] []

/-- `List.mapM` specialised to `Except` with transparent equations:
used to state the compositional form of `get_chunks`. -/
def exceptMapM (f : α → Except PyError β) : List α → Except PyError (List β)
  | [] => .ok []
  | x :: xs =>
    match f x with
    | .error e => .error e
    | .ok y =>
      match exceptMapM f xs with
      | .error e => .error e
      | .ok ys => .ok (y :: ys)

/-- A network request that `main` can trigger: an embedding request (from
`get_embeddings` on upload) or a chat request (from
`get_llm`/`get_response` on submit), each carrying the API key it is sent
with. -/
inductive ApiRequest where
  | embed (key : String)
  | chat (key : String)
deriving DecidableEq

/-- The API key a request is sent with. -/
def ApiRequest.apiKey : ApiRequest → String
  | .embed k => k
  | .chat k => k

/-- The upload handler of `main` (lines 165-171): when the Upload button is
clicked and documents are present, `get_chunks` then `get_embeddings` run —
the latter sends an embedding request with the entered key.  No check of
the key precedes this. -/
def uploadRequests (key : String) (uploadClicked hasDocs : Bool) :
    List ApiRequest :=
  if uploadClicked && hasDocs then [.embed key] else []

/-- The submit handler of `main` (lines 193-202): the chat request is only
issued when the form is submitted and `openai_api_key.startswith('sk-')`
holds. -/
def submitRequests (key : String) (submitClicked : Bool) : List ApiRequest :=
  if submitClicked && pyStartsWith "sk-" key then [.chat key] else []

/-! ### Lemmas: prefixes, infixes and the Boolean matcher -/

theorem isPre_iff (p : List Char) : ∀ s : List Char, isPre p s = true ↔ p <+: s := by
  induction p with
  | nil =>
    intro s
    simp only [isPre]
    exact ⟨fun _ => ⟨s, rfl⟩, fun _ => trivial⟩
  | cons a as ih =>
    intro s
    cases s with
    | nil =>
      simp [isPre]
    | cons b bs =>
      simp [isPre, Bool.and_eq_true, beq_iff_eq, ih bs, List.cons_prefix_cons]

theorem pre_len_le {p s : List Char} : p <+: s → p.length ≤ s.length := by
  rintro ⟨t, rfl⟩
  simp

theorem pre_inf {t s : List Char} : t <+: s → t <:+: s := by
  rintro ⟨r, rfl⟩
  exact ⟨[], r, rfl⟩

theorem inf_nil {t : List Char} : t <:+: ([] : List Char) → t = [] := by
  rintro ⟨l, r, h⟩
  simp only [List.append_eq_nil] at h
  exact h.1.2

theorem inf_cons_cases {t l : List Char} {c : Char} :
    t <:+: c :: l → t <+: c :: l ∨ t <:+: l := by
  rintro ⟨x, y, h⟩
  cases x with
  | nil =>
    left
    exact ⟨y, by simpa using h⟩
  | cons a x' =>
    right
    simp only [List.cons_append] at h
    injection h with h1 h2
    exact ⟨x', y, h2⟩

theorem inf_drop_lift {t s : List Char} {n : Nat} : t <:+: s.drop n → t <:+: s := by
  rintro ⟨x, y, h⟩
  refine ⟨s.take n ++ x, y, ?_⟩
  conv_rhs => rw [← List.take_append_drop n s]
  rw [← h]
  simp [List.append_assoc]

/-! ### Lemmas: the substitution scan -/

theorem substGo_zero (p s : List Char) : substGo p 0 s = s := rfl

theorem substGo_succ_pos {p s : List Char} (fuel : Nat) (h : isPre p s = true) :
    substGo p (fuel + 1) s = ' ' :: substGo p fuel (s.drop p.length) := by
  simp [substGo, h]

theorem substGo_succ_neg_nil {p : List Char} (fuel : Nat) (h : isPre p [] = false) :
    substGo p (fuel + 1) ([] : List Char) = [] := by
  simp [substGo, h]

theorem substGo_succ_neg_cons {p : List Char} {c : Char} {cs : List Char} (fuel : Nat)
    (h : isPre p (c :: cs) = false) :
    substGo p (fuel + 1) (c :: cs) = c :: substGo p fuel cs := by
  simp [substGo, h]

theorem pre_space_mem {t rest : List Char} (ht : t ≠ []) (h : t <+: ' ' :: rest) :
    ' ' ∈ t := by
  cases t with
  | nil => exact absurd rfl ht
  | cons d t' =>
    obtain ⟨hd, _⟩ := List.cons_prefix_cons.mp h
    subst hd
    exact List.mem_cons_self _ _

theorem substGo_pre_lift {q : List Char} (hq : q ≠ []) :
    ∀ (fuel : Nat) (s t : List Char), s.length ≤ fuel → t ≠ [] → ' ' ∉ t →
      t <+: substGo q fuel s → t <+: s := by
  intro fuel
  induction fuel with
  | zero =>
    intro s t hs _ _ hpre
    have hsnil : s = [] := List.length_eq_zero.mp (Nat.le_zero.mp hs)
    subst hsnil
    exact hpre
  | succ fuel ih =>
    intro s t hs ht hsp hpre
    by_cases hps : isPre q s = true
    · rw [substGo_succ_pos fuel hps] at hpre
      exact absurd (pre_space_mem ht hpre) hsp
    · have hps' : isPre q s = false := by simpa using hps
      cases s with
      | nil =>
        rw [substGo_succ_neg_nil fuel hps'] at hpre
        exact hpre
      | cons c cs =>
        rw [substGo_succ_neg_cons fuel hps'] at hpre
        cases t with
        | nil => exact absurd rfl ht
        | cons d t' =>
          obtain ⟨hd, hpre'⟩ := List.cons_prefix_cons.mp hpre
          subst hd
          have hcs : cs.length ≤ fuel := by
            simp at hs
            omega
          have ht' : t' <+: cs := by
            cases t' with
            | nil => exact ⟨cs, rfl⟩
            | cons e t'' =>
              exact ih cs (e :: t'') hcs (by simp)
                (fun hm => hsp (List.mem_cons_of_mem _ hm)) hpre'
          exact List.cons_prefix_cons.mpr ⟨rfl, ht'⟩

theorem pre_cons_through {q : List Char} (hq : q ≠ []) {fuel : Nat} {c : Char}
    {cs t : List Char} (hlen : cs.length ≤ fuel) (hsp : ' ' ∉ t)
    (h : t <+: c :: substGo q fuel cs) : t <+: c :: cs := by
  cases t with
  | nil => exact ⟨c :: cs, rfl⟩
  | cons d t' =>
    obtain ⟨hd, h'⟩ := List.cons_prefix_cons.mp h
    subst hd
    have ht' : t' <+: cs := by
      cases t' with
      | nil => exact ⟨cs, rfl⟩
      | cons e t'' =>
        exact substGo_pre_lift hq fuel cs (e :: t'') hlen (by simp)
          (fun hm => hsp (List.mem_cons_of_mem _ hm)) h'
    exact List.cons_prefix_cons.mpr ⟨rfl, ht'⟩

theorem substGo_inf_lift {q : List Char} (hq : q ≠ []) :
    ∀ (fuel : Nat) (s t : List Char), s.length ≤ fuel → t ≠ [] → ' ' ∉ t →
      t <:+: substGo q fuel s → t <:+: s := by
  intro fuel
  induction fuel with
  | zero =>
    intro s t hs _ _ hinf
    have hsnil : s = [] := List.length_eq_zero.mp (Nat.le_zero.mp hs)
    subst hsnil
    exact hinf
  | succ fuel ih =>
    intro s t hs ht hsp hinf
    have hql : 1 ≤ q.length := List.length_pos.mpr hq
    by_cases hps : isPre q s = true
    · rw [substGo_succ_pos fuel hps] at hinf
      rcases inf_cons_cases hinf with hpre | hinf'
      · exact absurd (pre_space_mem ht hpre) hsp
      · have hlen : (s.drop q.length).length ≤ fuel := by
          simp only [List.length_drop]
          omega
        exact inf_drop_lift (ih (s.drop q.length) t hlen ht hsp hinf')
    · have hps' : isPre q s = false := by simpa using hps
      cases s with
      | nil =>
        rw [substGo_succ_neg_nil fuel hps'] at hinf
        exact absurd (inf_nil hinf) ht
      | cons c cs =>
        rw [substGo_succ_neg_cons fuel hps'] at hinf
        have hcs : cs.length ≤ fuel := by
          simp at hs
          omega
        rcases inf_cons_cases hinf with hpre | hinf'
        · exact pre_inf (pre_cons_through hq hcs hsp hpre)
        · exact List.infix_cons (ih cs t hcs ht hsp hinf')

theorem substGo_no_self {p : List Char} (hp : p ≠ []) (hsp : ' ' ∉ p) :
    ∀ (fuel : Nat) (s : List Char), s.length ≤ fuel → ¬ p <:+: substGo p fuel s := by
  intro fuel
  induction fuel with
  | zero =>
    intro s hs hinf
    have hsnil : s = [] := List.length_eq_zero.mp (Nat.le_zero.mp hs)
    subst hsnil
    exact hp (inf_nil hinf)
  | succ fuel ih =>
    intro s hs hinf
    have hpl : 1 ≤ p.length := List.length_pos.mpr hp
    by_cases hps : isPre p s = true
    · rw [substGo_succ_pos fuel hps] at hinf
      rcases inf_cons_cases hinf with hpre | hinf'
      · exact hsp (pre_space_mem hp hpre)
      · have hlen : (s.drop p.length).length ≤ fuel := by
          simp only [List.length_drop]
          omega
        exact ih (s.drop p.length) hlen hinf'
    · have hps' : isPre p s = false := by simpa using hps
      cases s with
      | nil =>
        rw [substGo_succ_neg_nil fuel hps'] at hinf
        exact hp (inf_nil hinf)
      | cons c cs =>
        rw [substGo_succ_neg_cons fuel hps'] at hinf
        have hcs : cs.length ≤ fuel := by
          simp at hs
          omega
        rcases inf_cons_cases hinf with hpre | hinf'
        · have : p <+: c :: cs := pre_cons_through hp hcs hsp hpre
          rw [(isPre_iff p (c :: cs)).mpr this] at hps'
          exact absurd hps' (by simp)
        · exact ih cs hcs hinf'

theorem substGo_id {p : List Char} (hp : p ≠ []) :
    ∀ (fuel : Nat) (s : List Char), ¬ p <:+: s → substGo p fuel s = s := by
  intro fuel
  induction fuel with
  | zero => intro s _; rfl
  | succ fuel ih =>
    intro s hinf
    by_cases hps : isPre p s = true
    · exact absurd (pre_inf ((isPre_iff p s).mp hps)) hinf
    · have hps' : isPre p s = false := by simpa using hps
      cases s with
      | nil => exact substGo_succ_neg_nil fuel hps'
      | cons c cs =>
        rw [substGo_succ_neg_cons fuel hps']
        rw [ih cs fun h => hinf (List.infix_cons h)]

theorem substL_eq_go {p : List Char} (hp : p ≠ []) (s : List Char) :
    substL p s = substGo p s.length s := by
  cases p with
  | nil => exact absurd rfl hp
  | cons a as => rfl

theorem substL_inf_lift {q t : List Char} (hq : q ≠ []) (ht : t ≠ []) (hsp : ' ' ∉ t)
    {s : List Char} (h : t <:+: substL q s) : t <:+: s := by
  rw [substL_eq_go hq] at h
  exact substGo_inf_lift hq s.length s t (Nat.le_refl _) ht hsp h

theorem substL_no_self {p : List Char} (hp : p ≠ []) (hsp : ' ' ∉ p) (s : List Char) :
    ¬ p <:+: substL p s := by
  rw [substL_eq_go hp]
  exact substGo_no_self hp hsp s.length s (Nat.le_refl _)

theorem substL_id {p : List Char} (hp : p ≠ []) {s : List Char} (h : ¬ p <:+: s) :
    substL p s = s := by
  rw [substL_eq_go hp]
  exact substGo_id hp s.length s h

/-! ### Lemmas: the delimiter-cleanup pass (claim C3) -/

theorem cleanupText_data : ∀ (ds : List String) (s : String),
    (cleanupText ds s).data = cleanupL (ds.map String.data) s.data := by
  intro ds
  induction ds with
  | nil => intro s; rfl
  | cons d ds ih =>
    intro s
    simpa [cleanupText, cleanupL, List.foldl_cons] using ih (pysub d s)

theorem cleanupL_pres {d : List Char} (hd : d ≠ []) (hsp : ' ' ∉ d) :
    ∀ (ds : List (List Char)) (t : List Char), (∀ q ∈ ds, q ≠ []) →
      ¬ d <:+: t → ¬ d <:+: cleanupL ds t := by
  intro ds
  induction ds with
  | nil => intro t _ h; exact h
  | cons q ds ih =>
    intro t hq h
    have hstep : cleanupL (q :: ds) t = cleanupL ds (substL q t) := rfl
    rw [hstep]
    have hq1 : q ≠ [] := hq q (List.mem_cons_self _ _)
    have h2 : ¬ d <:+: substL q t := fun hcon => h (substL_inf_lift hq1 hd hsp hcon)
    exact ih (substL q t) (fun x hx => hq x (List.mem_cons_of_mem _ hx)) h2

theorem cleanupL_no_inf : ∀ (ds : List (List Char)) (s d : List Char), d ∈ ds →
    (∀ q ∈ ds, q ≠ [] ∧ ' ' ∉ q) → ¬ d <:+: cleanupL ds s := by
  intro ds
  induction ds with
  | nil => intro s d hd _; simp at hd
  | cons q ds ih =>
    intro s d hd hall
    have hstep : cleanupL (q :: ds) s = cleanupL ds (substL q s) := rfl
    rw [hstep]
    rcases List.mem_cons.mp hd with h | h
    · subst h
      obtain ⟨hne, hsp⟩ := hall _ (List.mem_cons_self _ _)
      exact cleanupL_pres hne hsp ds _
        (fun x hx => (hall x (List.mem_cons_of_mem _ hx)).1)
        (substL_no_self hne hsp s)
    · exact ih (substL q s) d h fun x hx => hall x (List.mem_cons_of_mem _ hx)

theorem cleanupL_id : ∀ (ds : List (List Char)) (s : List Char),
    (∀ d ∈ ds, d ≠ []) → (∀ d ∈ ds, ¬ d <:+: s) → cleanupL ds s = s := by
  intro ds
  induction ds with
  | nil => intro s _ _; rfl
  | cons q ds ih =>
    intro s hne hinf
    have hq : substL q s = s :=
      substL_id (hne q (List.mem_cons_self _ _)) (hinf q (List.mem_cons_self _ _))
    have hstep : cleanupL (q :: ds) s = cleanupL ds (substL q s) := rfl
    rw [hstep, hq]
    exact ih s (fun x hx => hne x (List.mem_cons_of_mem _ hx))
      fun x hx => hinf x (List.mem_cons_of_mem _ hx)

theorem cleanupL_idem (ds : List (List Char)) (s : List Char)
    (h : ∀ d ∈ ds, d ≠ [] ∧ ' ' ∉ d) :
    cleanupL ds (cleanupL ds s) = cleanupL ds s :=
  cleanupL_id ds (cleanupL ds s) (fun d hd => (h d hd).1)
    fun d hd => cleanupL_no_inf ds s d hd h

/-! ### Lemmas: page trimming (claims C2 and C9) -/

theorem trimFront_ok : ∀ (n : Nat) (ps : List String), n ≤ ps.length →
    trimFront n ps = .ok (ps.drop n) := by
  intro n
  induction n with
  | zero => intro ps _; simp [trimFront]
  | succ n ih =>
    intro ps h
    cases ps with
    | nil => simp at h
    | cons p ps => simpa [trimFront] using ih ps (by simpa using h)

theorem trimFront_err : ∀ (n : Nat) (ps : List String), ps.length < n →
    trimFront n ps = .error .indexError := by
  intro n
  induction n with
  | zero => intro ps h; omega
  | succ n ih =>
    intro ps h
    cases ps with
    | nil => rfl
    | cons p ps => simpa [trimFront] using ih ps (by simp at h; omega)

theorem trimBack_err : ∀ (n : Nat) (ps : List String), ps.length < n →
    trimBack n ps = .error .indexError := by
  intro n
  induction n with
  | zero => intro ps h; omega
  | succ n ih =>
    intro ps h
    cases ps with
    | nil => rfl
    | cons p ps =>
      have : (p :: ps).dropLast.length < n := by
        simp [List.length_dropLast] at *
        omega
      simpa [trimBack] using ih (p :: ps).dropLast this

/-! ### Lemmas: title resolution (claim C10) -/

theorem foldl_title_skip : ∀ (l : List (String × String)) (acc : String),
    (∀ kv ∈ l, hasTitleKey kv.1 = false) →
    l.foldl (fun acc kv => if hasTitleKey kv.1 then kv.2 else acc) acc = acc := by
  intro l
  induction l with
  | nil => intro acc _; rfl
  | cons kv l ih =>
    intro acc h
    have h1 : hasTitleKey kv.1 = false := h kv (List.mem_cons_self _ _)
    rw [List.foldl_cons]
    simp only [h1, Bool.false_eq_true, if_false]
    exact ih acc fun x hx => h x (List.mem_cons_of_mem _ hx)

/-! ### Lemmas: enumeration bounds -/

theorem mem_enumFrom_bounds {α : Type} : ∀ (l : List α) (n : Nat) (x : Nat × α),
    x ∈ l.enumFrom n → n ≤ x.1 ∧ x.1 < n + l.length := by
  intro l
  induction l with
  | nil => intro n x hx; simp [List.enumFrom] at hx
  | cons a as ih =>
    intro n x hx
    simp only [List.enumFrom] at hx
    rcases List.mem_cons.mp hx with h | h
    · subst h
      simp
    · have := ih (n + 1) x h
      simp only [List.length_cons]
      omega

/-! ### Lemmas: structure of the per-file loop -/

theorem cleanupChunk_keeps_source (ds : List String) (c : Chunk) :
    (cleanupChunk ds c).source = c.source := rfl

theorem cleanupChunk_keeps_page (ds : List String) (c : Chunk) :
    (cleanupChunk ds c).page = c.page := rfl

theorem get_chunksAux_eq (cfg : ChunkConfig) (split : String → List String) :
    ∀ (files : List PdfFile) (i : Nat) (accC : List Chunk) (accN : List String),
      get_chunksAux cfg split i files accC accN =
        match exceptMapM (fun p => processDoc cfg split p.1 p.2) (files.enumFrom i) with
        | .error e => .error e
        | .ok docs =>
          .ok (accC ++ docs.flatten,
            accN ++ (files.enumFrom i).map fun p => resolveTitle p.1 p.2.metadata) := by
  intro files
  induction files with
  | nil =>
    intro i accC accN
    simp [get_chunksAux, List.enumFrom, exceptMapM]
  | cons f rest ih =>
    intro i accC accN
    cases hpd : processDoc cfg split i f with
    | error e =>
      simp [get_chunksAux, List.enumFrom, exceptMapM, hpd]
    | ok doc =>
      cases hm : exceptMapM (fun p => processDoc cfg split p.1 p.2)
          (rest.enumFrom (i + 1)) with
      | error e =>
        have hrec := ih (i + 1) (accC ++ doc) (accN ++ [resolveTitle i f.metadata])
        rw [hm] at hrec
        simp [get_chunksAux, List.enumFrom, exceptMapM, hpd, hm, hrec]
      | ok docs =>
        have hrec := ih (i + 1) (accC ++ doc) (accN ++ [resolveTitle i f.metadata])
        rw [hm] at hrec
        simp [get_chunksAux, List.enumFrom, exceptMapM, hpd, hm, hrec, List.append_assoc]

theorem exceptMapM_mem {α β : Type} (f : α → Except PyError β) :
    ∀ (l : List α) (ys : List β), exceptMapM f l = .ok ys →
      ∀ y ∈ ys, ∃ x ∈ l, f x = .ok y := by
  intro l
  induction l with
  | nil =>
    intro ys h y hy
    simp [exceptMapM] at h
    subst h
    simp at hy
  | cons x xs ih =>
    intro ys h y hy
    cases hfx : f x with
    | error e => simp [exceptMapM, hfx] at h
    | ok b =>
      cases hm : exceptMapM f xs with
      | error e => simp [exceptMapM, hfx, hm] at h
      | ok bs =>
        simp [exceptMapM, hfx, hm] at h
        subst h
        rcases List.mem_cons.mp hy with rfl | hy'
        · exact ⟨x, List.mem_cons_self _ _, hfx⟩
        · obtain ⟨x', hx', hfx'⟩ := ih bs hm y hy'
          exact ⟨x', List.mem_cons_of_mem _ hx', hfx'⟩

theorem extractChunks_page (split : String → List String) (us : Bool) (title : String) :
    ∀ (pages : List String) (doc : List Chunk),
      extractChunks split us title pages = .ok doc →
      ∀ c ∈ doc, ∃ k, 1 ≤ k ∧ k ≤ pages.length ∧ c.page = toString k := by
  intro pages doc h c hc
  cases us with
  | true =>
    simp [extractChunks] at h
    subst h
    obtain ⟨ip, hip, hc2⟩ := List.mem_flatMap.mp hc
    obtain ⟨t, ht, rfl⟩ := List.mem_map.mp hc2
    have hb := mem_enumFrom_bounds pages 0 ip hip
    exact ⟨ip.1 + 1, by omega, by omega, rfl⟩
  | false =>
    cases pages with
    | nil =>
      simp [extractChunks] at h
      subst h
      simp at hc
    | cons p ps =>
      simp [extractChunks] at h

theorem processDoc_page_range (cfg : ChunkConfig) (split : String → List String)
    (i : Nat) (f : PdfFile) (cs : List Chunk)
    (h : processDoc cfg split i f = .ok cs) :
    ∃ trimmed, doTrim cfg.remove_pages cfg.front_pages_to_remove
        cfg.last_pages_to_remove f.pages = .ok trimmed ∧
      ∀ c ∈ cs, ∃ k, 1 ≤ k ∧ k ≤ trimmed.length ∧ c.page = toString k := by
  unfold processDoc at h
  cases htrim : doTrim cfg.remove_pages cfg.front_pages_to_remove
      cfg.last_pages_to_remove f.pages with
  | error e => simp [htrim] at h
  | ok trimmed =>
    simp only [htrim] at h
    cases hex : extractChunks split cfg.use_splitter (resolveTitle i f.metadata)
        trimmed with
    | error e => simp [hex] at h
    | ok doc =>
      simp only [hex] at h
      injection h with h
      refine ⟨trimmed, rfl, ?_⟩
      intro c hc
      rw [← h] at hc
      have hdoc : ∃ c0 ∈ doc, c.page = c0.page := by
        cases hrd : cfg.remove_leftover_delimiters with
        | false =>
          rw [hrd] at hc
          simp at hc
          exact ⟨c, hc, rfl⟩
        | true =>
          rw [hrd] at hc
          simp at hc
          obtain ⟨c0, hc0, rfl⟩ := hc
          exact ⟨c0, hc0, rfl⟩
      obtain ⟨c0, hc0, hpage⟩ := hdoc
      obtain ⟨k, h1, h2, h3⟩ :=
        extractChunks_page split cfg.use_splitter _ trimmed doc hex c0 hc0
      exact ⟨k, h1, h2, by rw [hpage, h3]⟩

/-! ### Claim theorems -/

/-- C1: evaluating the claimed scenario — a 3-page document with no title
metadata, `use_splitter = false`, no trimming — does not yield three page
chunks: `get_chunks` raises `UnboundLocalError`, because the statement
`i += 1` in the no-splitter branch references the never-initialized local
`i` on the very first page. -/
theorem get_chunks_noSplitter_unboundLocal :
    get_chunks { use_splitter := false } (fun s => [s])
      [{ metadata := [], pages := ["A", "B", "C"] }] =
      .error .unboundLocalError := rfl

/-- C2: with trimming enabled, requesting removal of more pages than exist
raises `IndexError` (the spec's OutOfRangeError), and requesting zero
removal from both ends is a no-op returning all original pages. -/
theorem doTrim_bounds (ps : List String) (f l : Nat) :
    (ps.length < f + l → doTrim true (some f) (some l) ps = .error .indexError) ∧
    doTrim true (some 0) (some 0) ps = .ok ps := by
  constructor
  · intro h
    by_cases hf : f ≤ ps.length
    · have h1 : trimFront f ps = .ok (ps.drop f) := trimFront_ok f ps hf
      have h2 : trimBack l (ps.drop f) = .error .indexError :=
        trimBack_err l (ps.drop f) (by simp only [List.length_drop]; omega)
      simp [doTrim, h1, h2]
    · have h1 : trimFront f ps = .error .indexError := trimFront_err f ps (by omega)
      simp [doTrim, h1]
  · simp [doTrim, trimFront, trimBack]

theorem doTrim_bounds_witness :
    (["p1"] : List String).length < 1 + 1 ∧
    doTrim true (some 1) (some 1) ["p1"] = .error .indexError ∧
    doTrim true (some 0) (some 0) ["p1"] = .ok ["p1"] :=
  ⟨by decide, (doTrim_bounds ["p1"] 1 1).1 (by decide), (doTrim_bounds ["p1"] 1 1).2⟩

/-- C3 counterexample: with the default delimiter configuration the cleanup
pass is not idempotent — on a text containing five consecutive spaces one
pass leaves two spaces and a second pass collapses them to one. -/
theorem cleanupText_default_not_idem :
    cleanupText defaultDelimiters (cleanupText defaultDelimiters "a     b") ≠
      cleanupText defaultDelimiters "a     b" := by
  decide

/-- C3 (amended): the delimiter-cleanup pass is idempotent whenever every
configured delimiter is nonempty and contains no space character.  The
default configuration violates this (its two- and three-space delimiters
contain spaces), and is not idempotent. -/
theorem cleanupText_idem_of_no_space (ds : List String) (s : String)
    (h : ∀ d ∈ ds, d.data ≠ [] ∧ ' ' ∉ d.data) :
    cleanupText ds (cleanupText ds s) = cleanupText ds s := by
  apply String.ext
  rw [cleanupText_data, cleanupText_data]
  refine cleanupL_idem (ds.map String.data) s.data ?_
  intro d hd
  obtain ⟨x, hx, rfl⟩ := List.mem_map.mp hd
  exact h x hx

theorem cleanupText_idem_witness :
    (∀ d ∈ (["\t", "\n"] : List String), d.data ≠ [] ∧ ' ' ∉ d.data) ∧
    cleanupText ["\t", "\n"] (cleanupText ["\t", "\n"] "x\t\ny") =
      cleanupText ["\t", "\n"] "x\t\ny" :=
  ⟨by decide, cleanupText_idem_of_no_space ["\t", "\n"] "x\t\ny" (by decide)⟩

/-- C4 counterexample: clicking Upload with documents present and the key
"not-a-key" issues an embedding request even though the key fails the
"sk-" prefix check — the upload/embed path performs no key check at all. -/
theorem upload_unchecked_key :
    uploadRequests "not-a-key" true true = [ApiRequest.embed "not-a-key"] ∧
    pyStartsWith "sk-" "not-a-key" = false := by
  constructor
  · rfl
  · decide

/-- C4 (amended): only the submit/answer action is gated by the prefix
check — every chat request issued by the submit handler carries a key
beginning with "sk-" — while the upload/embed path issues its embedding
request without any check of the key. -/
theorem submit_checks_key (key : String) (clicked : Bool) :
    ∀ r ∈ submitRequests key clicked, pyStartsWith "sk-" r.apiKey = true := by
  intro r hr
  unfold submitRequests at hr
  cases hcond : clicked && pyStartsWith "sk-" key with
  | false =>
    rw [hcond] at hr
    simp at hr
  | true =>
    rw [hcond] at hr
    simp at hr
    subst hr
    exact (Bool.and_eq_true _ _ |>.mp hcond).2

theorem submit_checks_key_witness :
    ApiRequest.chat "sk-abc" ∈ submitRequests "sk-abc" true ∧
    pyStartsWith "sk-" (ApiRequest.chat "sk-abc").apiKey = true :=
  ⟨by decide, submit_checks_key "sk-abc" true (ApiRequest.chat "sk-abc") (by decide)⟩

/-- C5: every chunk returned by a successful `get_chunks` call lies in the
chunk list produced for exactly one uploaded document — the document whose
per-file processing emitted it — and carries page metadata `toString k`
with `k` between 1 and the number of pages remaining in that same document
after trimming: the renumbered page range of its trimmed document. -/
theorem get_chunks_page_in_range (cfg : ChunkConfig) (split : String → List String)
    (files : List PdfFile) (cs : List Chunk) (ns : List String)
    (h : get_chunks cfg split files = .ok (cs, ns)) :
    ∀ c ∈ cs, ∃ i f doc trimmed k, (i, f) ∈ files.enum ∧
      processDoc cfg split i f = .ok doc ∧ c ∈ doc ∧
      doTrim cfg.remove_pages cfg.front_pages_to_remove cfg.last_pages_to_remove
        f.pages = .ok trimmed ∧
      1 ≤ k ∧ k ≤ trimmed.length ∧ c.page = toString k := by
  intro c hc
  have heq := get_chunksAux_eq cfg split files 0 [] []
  unfold get_chunks at h
  rw [heq] at h
  cases hm : exceptMapM (fun p => processDoc cfg split p.1 p.2) (files.enumFrom 0) with
  | error e => rw [hm] at h; simp at h
  | ok docs =>
    rw [hm] at h
    simp only [List.nil_append] at h
    injection h with h
    have h1 : docs.flatten = cs := congrArg Prod.fst h
    rw [← h1] at hc
    obtain ⟨doc, hdocmem, hcdoc⟩ := List.mem_flatten.mp hc
    obtain ⟨p, hp, hpd⟩ := exceptMapM_mem _ _ _ hm doc hdocmem
    obtain ⟨trimmed, htrim, hrange⟩ := processDoc_page_range cfg split p.1 p.2 doc hpd
    obtain ⟨k, hk1, hk2, hk3⟩ := hrange c hcdoc
    exact ⟨p.1, p.2, doc, trimmed, k, hp, hpd, hcdoc, htrim, hk1, hk2, hk3⟩

theorem get_chunks_page_in_range_witness :
    ∃ i f doc trimmed k,
      (i, f) ∈ ([{ metadata := [], pages := ["P"] }] : List PdfFile).enum ∧
      processDoc { remove_leftover_delimiters := false } (fun s => [s]) i f =
        .ok doc ∧
      ({ page_content := "P", source := "uploaded_file_1", page := "1" } : Chunk) ∈
        doc ∧
      doTrim false none none f.pages = .ok trimmed ∧
      1 ≤ k ∧ k ≤ trimmed.length ∧
      ({ page_content := "P", source := "uploaded_file_1", page := "1" } : Chunk).page =
        toString k :=
  get_chunks_page_in_range { remove_leftover_delimiters := false } (fun s => [s])
    [{ metadata := [], pages := ["P"] }]
    [{ page_content := "P", source := "uploaded_file_1", page := "1" }]
    ["uploaded_file_1"] rfl
    { page_content := "P", source := "uploaded_file_1", page := "1" } (by decide)

/-- C6 counterexample: chunks are not immutable once created.  On a one-page
document whose text contains a tab, the chunk is constructed by the
extraction step with `page_content` "a\tb", but the returned chunk has
`page_content` "a b": the delimiter-cleanup step rewrote the field after
construction. -/
theorem chunk_mutated_by_cleanup :
    extractChunks (fun s => [s]) true "uploaded_file_1" ["a\tb"] =
      .ok [{ page_content := "a\tb", source := "uploaded_file_1", page := "1" }] ∧
    get_chunks {} (fun s => [s]) [{ metadata := [], pages := ["a\tb"] }] =
      .ok ([{ page_content := "a b", source := "uploaded_file_1", page := "1" }],
        ["uploaded_file_1"]) ∧
    ("a b" : String) ≠ "a\tb" := by
  refine ⟨rfl, rfl, by decide⟩

/-- C6 (amended): after construction the `source` and `page` fields of a
chunk are never modified by any later step, and with delimiter cleanup
disabled the chunks are returned exactly as constructed; when cleanup is
enabled, only the `page_content` field is rewritten in place. -/
theorem chunk_source_page_stable (cfg : ChunkConfig) (split : String → List String)
    (i : Nat) (f : PdfFile) (trimmed : List String) (doc cs : List Chunk)
    (htrim : doTrim cfg.remove_pages cfg.front_pages_to_remove cfg.last_pages_to_remove
      f.pages = .ok trimmed)
    (hex : extractChunks split cfg.use_splitter (resolveTitle i f.metadata) trimmed =
      .ok doc)
    (h : processDoc cfg split i f = .ok cs) :
    cs.map Chunk.source = doc.map Chunk.source ∧
    cs.map Chunk.page = doc.map Chunk.page ∧
    (cfg.remove_leftover_delimiters = false → cs = doc) := by
  unfold processDoc at h
  simp only [htrim, hex] at h
  injection h with h
  subst h
  cases hrd : cfg.remove_leftover_delimiters with
  | false => simp [hrd]
  | true =>
    refine ⟨?_, ?_, fun hc => by simp_all⟩
    · simp [hrd, List.map_map]
      intro a _
      rfl
    · simp [hrd, List.map_map]
      intro a _
      rfl

theorem chunk_source_page_stable_witness :
    ([{ page_content := "a b", source := "uploaded_file_1", page := "1" }] :
        List Chunk).map Chunk.source =
      ([{ page_content := "a\tb", source := "uploaded_file_1", page := "1" }] :
        List Chunk).map Chunk.source ∧
    ([{ page_content := "a b", source := "uploaded_file_1", page := "1" }] :
        List Chunk).map Chunk.page =
      ([{ page_content := "a\tb", source := "uploaded_file_1", page := "1" }] :
        List Chunk).map Chunk.page ∧
    (({} : ChunkConfig).remove_leftover_delimiters = false →
      ([{ page_content := "a b", source := "uploaded_file_1", page := "1" }] :
        List Chunk) =
        [{ page_content := "a\tb", source := "uploaded_file_1", page := "1" }]) :=
  chunk_source_page_stable {} (fun s => [s]) 0 { metadata := [], pages := ["a\tb"] }
    ["a\tb"] [{ page_content := "a\tb", source := "uploaded_file_1", page := "1" }]
    [{ page_content := "a b", source := "uploaded_file_1", page := "1" }] rfl rfl rfl

/-- C7: a successful `get_chunks` returns exactly the concatenation of the
per-document chunk lists in document upload order — hence document order
and within-document chunk order are preserved — together with the resolved
display names in upload order. -/
theorem get_chunks_order (cfg : ChunkConfig) (split : String → List String)
    (files : List PdfFile) (cs : List Chunk) (ns : List String)
    (h : get_chunks cfg split files = .ok (cs, ns)) :
    (∃ docs, exceptMapM (fun p => processDoc cfg split p.1 p.2) files.enum =
        .ok docs ∧ cs = docs.flatten) ∧
    ns = files.enum.map fun p => resolveTitle p.1 p.2.metadata := by
  have heq := get_chunksAux_eq cfg split files 0 [] []
  unfold get_chunks at h
  rw [heq] at h
  cases hm : exceptMapM (fun p => processDoc cfg split p.1 p.2) (files.enumFrom 0) with
  | error e => rw [hm] at h; simp at h
  | ok docs =>
    rw [hm] at h
    simp only [List.nil_append] at h
    injection h with h
    exact ⟨⟨docs, hm, (congrArg Prod.fst h).symm⟩, (congrArg Prod.snd h).symm⟩

theorem get_chunks_order_witness :
    (∃ docs,
      exceptMapM
        (fun p => processDoc { remove_leftover_delimiters := false } (fun s => [s])
          p.1 p.2)
        ([{ metadata := [], pages := ["X"] }, { metadata := [], pages := ["Y"] }] :
          List PdfFile).enum = .ok docs ∧
      ([{ page_content := "X", source := "uploaded_file_1", page := "1" },
        { page_content := "Y", source := "uploaded_file_2", page := "1" }] :
        List Chunk) = docs.flatten) ∧
    (["uploaded_file_1", "uploaded_file_2"] : List String) =
      ([{ metadata := [], pages := ["X"] }, { metadata := [], pages := ["Y"] }] :
        List PdfFile).enum.map fun p => resolveTitle p.1 p.2.metadata :=
  get_chunks_order { remove_leftover_delimiters := false } (fun s => [s])
    [{ metadata := [], pages := ["X"] }, { metadata := [], pages := ["Y"] }]
    [{ page_content := "X", source := "uploaded_file_1", page := "1" },
      { page_content := "Y", source := "uploaded_file_2", page := "1" }]
    ["uploaded_file_1", "uploaded_file_2"] rfl

/-- C8: a document whose page list is empty after trimming contributes zero
chunks and raises no error — the loop records its display name and then
continues processing the rest of the batch with the chunk accumulator
unchanged. -/
theorem get_chunks_empty_doc_skipped (cfg : ChunkConfig) (split : String → List String)
    (i : Nat) (f : PdfFile) (rest : List PdfFile) (accC : List Chunk)
    (accN : List String)
    (htrim : doTrim cfg.remove_pages cfg.front_pages_to_remove
      cfg.last_pages_to_remove f.pages = .ok []) :
    get_chunksAux cfg split i (f :: rest) accC accN =
      get_chunksAux cfg split (i + 1) rest accC (accN ++ [resolveTitle i f.metadata]) := by
  have hpd : processDoc cfg split i f = .ok [] := by
    unfold processDoc
    simp only [htrim]
    cases hus : cfg.use_splitter with
    | true => simp [extractChunks, hus]
    | false => simp [extractChunks, hus]
  simp [get_chunksAux, hpd]

theorem get_chunks_empty_doc_skipped_witness :
    get_chunksAux
      { remove_pages := true, front_pages_to_remove := some 1,
        last_pages_to_remove := some 0 } (fun s => [s]) 0
      [{ metadata := [], pages := ["skip"] }, { metadata := [], pages := ["Y"] }]
      [] [] =
    get_chunksAux
      { remove_pages := true, front_pages_to_remove := some 1,
        last_pages_to_remove := some 0 } (fun s => [s]) 1
      [{ metadata := [], pages := ["Y"] }] [] [resolveTitle 0 []] :=
  get_chunks_empty_doc_skipped
    { remove_pages := true, front_pages_to_remove := some 1,
      last_pages_to_remove := some 0 } (fun s => [s]) 0
    { metadata := [], pages := ["skip"] } [{ metadata := [], pages := ["Y"] }]
    [] [] rfl

/-- C9: enabling trimming while leaving a page count at its default `None`
raises an error (`range(None)` raises `TypeError`, possibly preceded by an
`IndexError` from the front loop) instead of treating the missing count as
zero. -/
theorem doTrim_none_counts_error (ps : List String) (front lastN : Option Nat)
    (h : front = none ∨ lastN = none) :
    ∃ e, doTrim true front lastN ps = .error e := by
  rcases h with h | h
  · subst h
    exact ⟨.typeError, by simp [doTrim]⟩
  · subst h
    cases front with
    | none => exact ⟨.typeError, by simp [doTrim]⟩
    | some f =>
      cases htf : trimFront f ps with
      | error e => exact ⟨e, by simp [doTrim, htf]⟩
      | ok ps1 => exact ⟨.typeError, by simp [doTrim, htf]⟩

theorem doTrim_none_counts_error_witness :
    ((none : Option Nat) = none ∨ (some 0 : Option Nat) = none) ∧
    ∃ e, doTrim true none (some 0) ["p1"] = .error e :=
  ⟨Or.inl rfl, doTrim_none_counts_error ["p1"] none (some 0) (Or.inl rfl)⟩

/-- C10: when several metadata keys contain "title" case-insensitively, the
display name is the value of the last such key in iteration order — later
matches overwrite earlier ones. -/
theorem resolveTitle_last_match (i : Nat) (pre post : List (String × String))
    (k v : String) (hk : hasTitleKey k = true)
    (hpost : ∀ kv ∈ post, hasTitleKey kv.1 = false) :
    resolveTitle i (pre ++ (k, v) :: post) = v := by
  unfold resolveTitle
  rw [List.foldl_append, List.foldl_cons]
  simp only [hk, if_true]
  exact foldl_title_skip post v hpost

theorem resolveTitle_last_match_witness :
    hasTitleKey "dc:Title" = true ∧
    (∀ kv ∈ ([("author", "X")] : List (String × String)),
      hasTitleKey kv.1 = false) ∧
    resolveTitle 0 ([("Title", "First")] ++ ("dc:Title", "Second") ::
      [("author", "X")]) = "Second" :=
  ⟨by decide, by decide,
    resolveTitle_last_match 0 [("Title", "First")] [("author", "X")]
      "dc:Title" "Second" (by decide) (by decide)⟩

end RagChunker
